import Mathlib

/-!
Verification of the layered lookup view ("chained mapping") example from
`Data Structures and Algorithms/Combining_Multiple_Mappings_into_a_Single_Mapping.py`
and of the paired (value, key) reductions from
`Data Structures and Algorithms/Calculating_with_Dictionaries.py`.

The repository only *calls* `collections.ChainMap` and the built-in `dict`;
the implementations of those containers are standard-library code that is not
part of the repository sources.  Following the specification, the layered view
and its layer mappings are therefore modelled here from the spec's own
description (doc comments marked "Modelled from the spec:"), and the claims are
settled against that model.  Keys and values are modelled as natural numbers;
a mapping is an insertion-ordered association list with unique keys, which is
the observable behaviour of a Python `dict`.
-/

namespace Cookbook

/-- Modelled from the spec: a layer is "an ordered, mutable key-value mapping"
(keys unique, associative).  We represent it as an insertion-ordered
association list of key-value pairs. -/
abbrev Layer := List (Nat × Nat)

/-- Modelled from the spec: looking a key up in a single layer returns the
value stored at the first matching key, if any. -/
def lookupL : Layer → Nat → Option Nat
  | [], _ => none
  | (k, v) :: rest, key => if k = key then some v else lookupL rest key

/-- Modelled from the spec: writing into a layer updates the value in place
when the key is present and appends the new pair at the end (insertion order)
when it is absent. -/
def insertL : Layer → Nat → Nat → Layer
  | [], key, val => [(key, val)]
  | (k, v) :: rest, key, val =>
      if k = key then (k, val) :: rest else (k, v) :: insertL rest key val

/-- Modelled from the spec: deleting a key from a layer removes its pair. -/
def eraseL : Layer → Nat → Layer
  | [], _ => []
  | (k, v) :: rest, key => if k = key then rest else (k, v) :: eraseL rest key

/-- The keys of a layer in insertion order. -/
def keysL (L : Layer) : List Nat := L.map Prod.fst

/-- Modelled from the spec: the two error kinds of the layered view,
`KeyNotFound` (get/delete on an absent key in the required scope) and
`EmptyChain` (pop_child on a single-layer view). -/
inductive Err where
  | KeyNotFound
  | EmptyChain
deriving DecidableEq, Repr

/-- Modelled from the spec: the layered lookup view composes an ordered
sequence of mappings (the "chain of layers") into one logical view. -/
structure ChainMap where
  maps : List Layer
deriving DecidableEq, Repr

/-- Modelled from the spec: a view is created from an ordered list of zero or
more mappings; a view constructed with zero arguments holds one automatically
created empty layer, so that writes always have a first layer to target. -/
def ChainMap.ofMaps (ms : List Layer) : ChainMap :=
  ⟨if ms.isEmpty then [[]] else ms⟩

/-- Scan a chain of layers in priority order for a key. -/
def getFrom : List Layer → Nat → Except Err Nat
  | [], _ => .error .KeyNotFound
  | L :: rest, key =>
      match lookupL L key with
      | some v => .ok v
      | none => getFrom rest key

/-- Modelled from the spec: `get(key)` scans layers in priority order and
returns the value from the first layer containing `key`; it fails with
`KeyNotFound` if no layer contains it. -/
def ChainMap.get (c : ChainMap) (key : Nat) : Except Err Nat :=
  getFrom c.maps key

/-- Modelled from the spec: `set(key, value)` writes into the first
(highest-priority) layer only, creating the key there if absent.  A view
always has at least one layer, so the empty-chain branch is unreachable for
views built through the construction helpers. -/
def ChainMap.set (c : ChainMap) (key val : Nat) : ChainMap :=
  match c.maps with
  | [] => c
  | L :: rest => ⟨insertL L key val :: rest⟩

/-- Modelled from the spec: `delete(key)` removes `key` from the first layer
only, and fails with `KeyNotFound` if the first layer does not contain it,
even when a lower layer does. -/
def ChainMap.delete (c : ChainMap) (key : Nat) : Except Err ChainMap :=
  match c.maps with
  | [] => .error .KeyNotFound
  | L :: rest =>
      match lookupL L key with
      | some _ => .ok ⟨eraseL L key :: rest⟩
      | none => .error .KeyNotFound

/-- Modelled from the spec: `push_child()` returns a new view with an empty
mapping inserted as the new first layer. -/
def ChainMap.new_child (c : ChainMap) : ChainMap :=
  ⟨[] :: c.maps⟩

/-- Modelled from the spec: `pop_child()` returns a new view with the current
first layer removed; it fails with `EmptyChain` if only one layer remains. -/
def ChainMap.parents (c : ChainMap) : Except Err ChainMap :=
  match c.maps with
  | [] => .error .EmptyChain
  | [_] => .error .EmptyChain
  | _ :: rest => .ok ⟨rest⟩

/-- Accumulate the keys of one layer onto an accumulator, skipping keys
already seen. -/
def addLayerKeys (acc : List Nat) (L : Layer) : List Nat :=
  L.foldl (fun a p => if p.1 ∈ a then a else a ++ [p.1]) acc

/-- Modelled from the spec: `keys()` produces the union of keys across all
layers, each key once, in layer priority order then insertion order within a
layer, duplicates suppressed after the first occurrence. -/
def ChainMap.keys (c : ChainMap) : List Nat :=
  c.maps.foldl addLayerKeys []

/-- Modelled from the spec: `values()` pairs each enumerated key with the
value from its highest-priority owning layer (the value `get` returns). -/
def ChainMap.values (c : ChainMap) : List Nat :=
  c.keys.filterMap (fun k => (getFrom c.maps k).toOption)

/-- Modelled from the spec: `len()` counts the enumerated keys, i.e. the
distinct keys of the union of all layers. -/
def ChainMap.len (c : ChainMap) : Nat :=
  c.keys.length

/-- Reference formulation of the spec's iteration order: traverse a key list
left to right, skipping keys in `seen` and keeping only the first occurrence
of every remaining key. -/
def dedupFrom (seen : List Nat) : List Nat → List Nat
  | [] => []
  | k :: ks => if k ∈ seen then dedupFrom seen ks else k :: dedupFrom (k :: seen) ks

/-- The concatenation of all layers' keys in priority order. -/
def allKeys : List Layer → List Nat
  | [] => []
  | L :: ms => keysL L ++ allKeys ms

theorem lookupL_insertL_self (L : Layer) (k v : Nat) :
    lookupL (insertL L k v) k = some v := by
  induction L with
  | nil => simp [insertL, lookupL]
  | cons p rest ih =>
    obtain ⟨a, b⟩ := p
    by_cases h : a = k
    · simp [insertL, lookupL, h]
    · simp [insertL, lookupL, h, ih]

theorem keysL_insertL (L : Layer) (k v : Nat) :
    keysL (insertL L k v) =
      (if (lookupL L k).isSome then keysL L else keysL L ++ [k]) := by
  induction L with
  | nil => simp [insertL, lookupL, keysL]
  | cons p rest ih =>
    obtain ⟨a, b⟩ := p
    by_cases h : a = k
    · simp [insertL, lookupL, keysL, h]
    · simp [insertL, lookupL, keysL, h] at ih ⊢
      rw [ih]
      by_cases hs : (lookupL rest k).isSome <;> simp [hs]

theorem mem_keysL_iff (L : Layer) (k : Nat) :
    k ∈ keysL L ↔ (lookupL L k).isSome := by
  induction L with
  | nil => simp [keysL, lookupL]
  | cons p rest ih =>
    obtain ⟨a, b⟩ := p
    simp only [keysL, List.map_cons, List.mem_cons, lookupL] at ih ⊢
    by_cases h : a = k
    · simp [h]
    · have hne : ¬ k = a := fun hk => h hk.symm
      simp [h, hne, ih]

theorem getFrom_eq_findSome? (ms : List Layer) (k : Nat) :
    getFrom ms k =
      (match ms.findSome? (fun L => lookupL L k) with
        | some v => Except.ok v
        | none => Except.error Err.KeyNotFound) := by
  induction ms with
  | nil => simp [getFrom]
  | cons L rest ih =>
    cases h : lookupL L k with
    | some v => simp [getFrom, List.findSome?_cons, h]
    | none => simp [getFrom, List.findSome?_cons, h, ih]

theorem getFrom_eq_error (ms : List Layer) (k : Nat)
    (h : ∀ L ∈ ms, lookupL L k = none) :
    getFrom ms k = Except.error Err.KeyNotFound := by
  induction ms with
  | nil => rfl
  | cons L rest ih =>
    have hL : lookupL L k = none := h L (List.mem_cons_self L rest)
    simp [getFrom, hL]
    exact ih fun M hM => h M (List.mem_cons_of_mem L hM)

/-- C1: `get` scans the layers in priority order and returns the value from
the first layer containing the key; when the first layer contains the key its
value wins over any lower layer's, and when no layer contains the key the
lookup fails with `KeyNotFound`. -/
theorem get_scans_layers (c : ChainMap) (k : Nat) :
    (c.get k =
      (match c.maps.findSome? (fun L => lookupL L k) with
        | some v => Except.ok v
        | none => Except.error Err.KeyNotFound))
    ∧ (∀ L1 rest v1, c.maps = L1 :: rest → lookupL L1 k = some v1 →
        c.get k = Except.ok v1)
    ∧ ((∀ L ∈ c.maps, lookupL L k = none) →
        c.get k = Except.error Err.KeyNotFound) := by
  refine ⟨getFrom_eq_findSome? c.maps k, ?_, getFrom_eq_error c.maps k⟩
  intro L1 rest v1 hmaps hv
  show getFrom c.maps k = Except.ok v1
  rw [hmaps]
  simp [getFrom, hv]

/-- C1 witness: with layers `[(1, 10)]` above `[(1, 20)]`, `get 1` returns 10,
the higher-priority binding, and `get 2` fails with `KeyNotFound`. -/
theorem get_scans_layers_witness :
    ChainMap.get ⟨[[(1, 10)], [(1, 20)]]⟩ 1 = Except.ok 10
    ∧ ChainMap.get ⟨[[(1, 10)], [(1, 20)]]⟩ 2 = Except.error Err.KeyNotFound :=
  ⟨(get_scans_layers ⟨[[(1, 10)], [(1, 20)]]⟩ 1).2.1 [(1, 10)] [[(1, 20)]] 10 rfl
      (by decide),
   (get_scans_layers ⟨[[(1, 10)], [(1, 20)]]⟩ 2).2.2 (by decide)⟩

/-- C2: `pop_child` on a single-layer view fails with `EmptyChain`; on a view
of two or more layers it succeeds and returns the view whose chain is the
original chain without its first layer. -/
theorem pop_child_spec (c : ChainMap) :
    (∀ L, c.maps = [L] → c.parents = Except.error Err.EmptyChain)
    ∧ (∀ L1 L2 rest, c.maps = L1 :: L2 :: rest →
        c.parents = Except.ok ⟨L2 :: rest⟩) := by
  obtain ⟨ms⟩ := c
  constructor
  · rintro L h
    simp only at h
    subst h
    rfl
  · rintro L1 L2 rest h
    simp only at h
    subst h
    rfl

/-- C2 witness: popping a one-layer view fails with `EmptyChain`; popping a
two-layer view drops the first layer. -/
theorem pop_child_spec_witness :
    ChainMap.parents ⟨[[(1, 1)]]⟩ = Except.error Err.EmptyChain
    ∧ ChainMap.parents ⟨[[(1, 1)], [(2, 2)]]⟩ = Except.ok ⟨[[(2, 2)]]⟩ :=
  ⟨(pop_child_spec ⟨[[(1, 1)]]⟩).1 [(1, 1)] rfl,
   (pop_child_spec ⟨[[(1, 1)], [(2, 2)]]⟩).2 [(1, 1)] [(2, 2)] [] rfl⟩

/-- C3: `delete` acts on the first layer only: when the first layer contains
the key the pair is removed there and every lower layer is left untouched,
and when the first layer lacks the key the call fails with `KeyNotFound`
no matter which lower layers contain it. -/
theorem delete_first_layer_only (L1 : Layer) (rest : List Layer) (k : Nat) :
    ((lookupL L1 k).isSome →
      ChainMap.delete ⟨L1 :: rest⟩ k = Except.ok ⟨eraseL L1 k :: rest⟩)
    ∧ (lookupL L1 k = none →
      ChainMap.delete ⟨L1 :: rest⟩ k = Except.error Err.KeyNotFound) := by
  constructor
  · intro h
    cases hl : lookupL L1 k with
    | none => rw [hl] at h; simp at h
    | some v => simp [ChainMap.delete, hl]
  · intro h
    simp [ChainMap.delete, h]

/-- C3 witness: with first layer `[(1, 1)]` and lower layer `[(2, 9)]`,
deleting key 2 (present only below) fails with `KeyNotFound`, and deleting
key 1 removes it from the first layer while the lower layer survives. -/
theorem delete_first_layer_only_witness :
    ChainMap.delete ⟨[[(1, 1)], [(2, 9)]]⟩ 2 = Except.error Err.KeyNotFound
    ∧ ChainMap.delete ⟨[[(1, 1)], [(2, 9)]]⟩ 1 = Except.ok ⟨[[], [(2, 9)]]⟩ :=
  ⟨(delete_first_layer_only [(1, 1)] [[(2, 9)]] 2).2 (by decide),
   (delete_first_layer_only [(1, 1)] [[(2, 9)]] 1).1 (by decide)⟩

/-- C5: `set` writes the pair into the first layer only: the lower layers of
the result are exactly the original lower layers, a subsequent `get` of the
key returns the written value, and the first layer's key set gains the key
exactly when it was absent there. -/
theorem set_first_layer_only (L1 : Layer) (rest : List Layer) (k v : Nat) :
    ChainMap.set ⟨L1 :: rest⟩ k v = ⟨insertL L1 k v :: rest⟩
    ∧ (ChainMap.set ⟨L1 :: rest⟩ k v).get k = Except.ok v
    ∧ keysL (insertL L1 k v) =
        (if (lookupL L1 k).isSome then keysL L1 else keysL L1 ++ [k]) := by
  refine ⟨rfl, ?_, keysL_insertL L1 k v⟩
  show getFrom (insertL L1 k v :: rest) k = Except.ok v
  simp [getFrom, lookupL_insertL_self]

/-- C7: pushing a child layer, writing into it, then popping restores a view
equal in value to the original. -/
theorem push_set_pop_restores (c : ChainMap) (k v : Nat) (h : c.maps ≠ []) :
    ((c.new_child).set k v).parents = Except.ok c := by
  obtain ⟨ms⟩ := c
  cases ms with
  | nil => exact absurd rfl h
  | cons L rest => rfl

/-- C7 witness: push, write `2 ↦ 5`, pop on the one-layer view `[[(1, 1)]]`
yields back exactly that view. -/
theorem push_set_pop_restores_witness :
    (⟨[[(1, 1)]]⟩ : ChainMap).maps ≠ []
    ∧ ((ChainMap.new_child ⟨[[(1, 1)]]⟩).set 2 5).parents =
        Except.ok ⟨[[(1, 1)]]⟩ :=
  ⟨by decide, push_set_pop_restores ⟨[[(1, 1)]]⟩ 2 5 (by decide)⟩

/-- C10: a view constructed from zero mappings holds exactly one empty layer:
its length is 0, every `get` fails with `KeyNotFound`, yet `set` succeeds and
a subsequent `get` of the written key returns the written value. -/
theorem empty_construction_spec :
    (ChainMap.ofMaps []).maps = [[]]
    ∧ (ChainMap.ofMaps []).len = 0
    ∧ (∀ k, (ChainMap.ofMaps []).get k = Except.error Err.KeyNotFound)
    ∧ (∀ k v, ((ChainMap.ofMaps []).set k v).get k = Except.ok v) := by
  refine ⟨rfl, rfl, fun k => rfl, fun k v => ?_⟩
  show getFrom [insertL [] k v] k = Except.ok v
  simp [getFrom, lookupL_insertL_self]

theorem mem_dedupFrom (l : List Nat) : ∀ (seen : List Nat) (x : Nat),
    x ∈ dedupFrom seen l ↔ x ∈ l ∧ x ∉ seen := by
  induction l with
  | nil => intro seen x; simp [dedupFrom]
  | cons k ks ih =>
    intro seen x
    by_cases hk : k ∈ seen
    · rw [dedupFrom, if_pos hk, ih]
      simp only [List.mem_cons]
      constructor
      · exact fun h => ⟨Or.inr h.1, h.2⟩
      · rintro ⟨hx | hx, hs⟩
        · exact absurd (hx ▸ hk) hs
        · exact ⟨hx, hs⟩
    · rw [dedupFrom, if_neg hk]
      by_cases hx : x = k
      · subst hx
        simp [hk]
      · simp only [List.mem_cons, hx, false_or, ih]

theorem dedupFrom_nodup (l : List Nat) : ∀ seen : List Nat,
    (dedupFrom seen l).Nodup := by
  induction l with
  | nil => intro seen; simp [dedupFrom]
  | cons k ks ih =>
    intro seen
    by_cases hk : k ∈ seen
    · rw [dedupFrom, if_pos hk]
      exact ih seen
    · rw [dedupFrom, if_neg hk]
      refine List.nodup_cons.2 ⟨fun hmem => ?_, ih (k :: seen)⟩
      exact ((mem_dedupFrom ks (k :: seen) k).1 hmem).2 (List.mem_cons_self k seen)

theorem dedupFrom_congr (l : List Nat) : ∀ s t : List Nat,
    (∀ x, x ∈ s ↔ x ∈ t) → dedupFrom s l = dedupFrom t l := by
  induction l with
  | nil => intro s t _; rfl
  | cons k ks ih =>
    intro s t hst
    by_cases hk : k ∈ s
    · rw [dedupFrom, dedupFrom, if_pos hk, if_pos ((hst k).1 hk), ih s t hst]
    · rw [dedupFrom, dedupFrom, if_neg hk, if_neg (fun h => hk ((hst k).2 h))]
      refine congrArg _ (ih (k :: s) (k :: t) fun x => ?_)
      simp [List.mem_cons, hst x]

theorem addLayerKeys_eq (L : Layer) : ∀ acc : List Nat,
    addLayerKeys acc L = acc ++ dedupFrom acc (keysL L) := by
  induction L with
  | nil => intro acc; simp [addLayerKeys, keysL, dedupFrom]
  | cons p rest ih =>
    intro acc
    have hstep : addLayerKeys acc (p :: rest) =
        addLayerKeys (if p.1 ∈ acc then acc else acc ++ [p.1]) rest := by
      simp [addLayerKeys]
    have hkeys : keysL (p :: rest) = p.1 :: keysL rest := by simp [keysL]
    rw [hstep, hkeys]
    by_cases hp : p.1 ∈ acc
    · rw [if_pos hp, ih, dedupFrom, if_pos hp]
    · rw [if_neg hp, ih, dedupFrom, if_neg hp]
      rw [dedupFrom_congr (keysL rest) (acc ++ [p.1]) (p.1 :: acc)
        (fun x => by simp [List.mem_append, List.mem_cons, or_comm])]
      simp

theorem dedupFrom_append (l1 : List Nat) : ∀ (seen l2 : List Nat),
    dedupFrom seen (l1 ++ l2) =
      dedupFrom seen l1 ++ dedupFrom (l1 ++ seen) l2 := by
  induction l1 with
  | nil => intro seen l2; simp [dedupFrom]
  | cons k ks ih =>
    intro seen l2
    by_cases hk : k ∈ seen
    · rw [List.cons_append, dedupFrom, if_pos hk, dedupFrom, if_pos hk, ih]
      refine congrArg _ (dedupFrom_congr l2 (ks ++ seen) ((k :: ks) ++ seen)
        fun x => ?_)
      simp only [List.cons_append, List.mem_cons, List.mem_append]
      constructor
      · exact fun h => Or.inr h
      · rintro (rfl | h)
        · exact Or.inr hk
        · exact h
    · rw [List.cons_append, dedupFrom, if_neg hk, dedupFrom, if_neg hk,
        ih (k :: seen) l2, List.cons_append]
      refine congrArg _ (congrArg _ (dedupFrom_congr l2 (ks ++ k :: seen)
        (k :: ks ++ seen) fun x => ?_))
      simp only [List.mem_cons, List.mem_append]
      tauto

theorem foldl_addLayerKeys (ms : List Layer) : ∀ acc : List Nat,
    List.foldl addLayerKeys acc ms = acc ++ dedupFrom acc (allKeys ms) := by
  induction ms with
  | nil => intro acc; simp [allKeys, dedupFrom]
  | cons L ms ih =>
    intro acc
    rw [List.foldl_cons, ih, addLayerKeys_eq]
    rw [show allKeys (L :: ms) = keysL L ++ allKeys ms from rfl, dedupFrom_append]
    rw [List.append_assoc]
    refine congrArg _ (congrArg _ (dedupFrom_congr (allKeys ms)
      (acc ++ dedupFrom acc (keysL L)) (keysL L ++ acc) fun x => ?_))
    simp only [List.mem_append, mem_dedupFrom]
    by_cases hx : x ∈ acc <;> simp [hx]

theorem keys_eq_dedupFrom (c : ChainMap) :
    c.keys = dedupFrom [] (allKeys c.maps) := by
  show List.foldl addLayerKeys [] c.maps = _
  rw [foldl_addLayerKeys]
  simp

theorem mem_allKeys (ms : List Layer) (x : Nat) :
    x ∈ allKeys ms ↔ ∃ L ∈ ms, x ∈ keysL L := by
  induction ms with
  | nil => simp [allKeys]
  | cons L ms ih => simp [allKeys, List.mem_append, ih]

theorem mem_keys_iff (c : ChainMap) (k : Nat) :
    k ∈ c.keys ↔ ∃ L ∈ c.maps, (lookupL L k).isSome := by
  rw [keys_eq_dedupFrom, mem_dedupFrom]
  simp only [List.not_mem_nil, not_false_iff, and_true, mem_allKeys]
  constructor
  · rintro ⟨L, hL, hk⟩
    exact ⟨L, hL, (mem_keysL_iff L k).1 hk⟩
  · rintro ⟨L, hL, hk⟩
    exact ⟨L, hL, (mem_keysL_iff L k).2 hk⟩

theorem getFrom_isOk (ms : List Layer) (k : Nat)
    (h : ∃ L ∈ ms, (lookupL L k).isSome) :
    ∃ v, getFrom ms k = Except.ok v := by
  induction ms with
  | nil => simp at h
  | cons L rest ih =>
    cases hl : lookupL L k with
    | some v => exact ⟨v, by simp [getFrom, hl]⟩
    | none =>
      simp only [getFrom, hl]
      apply ih
      rcases h with ⟨M, hM, hsome⟩
      rcases List.mem_cons.1 hM with rfl | hmem
      · rw [hl] at hsome; simp at hsome
      · exact ⟨M, hmem, hsome⟩

theorem forall2_filterMap (f : Nat → Option Nat) (l : List Nat)
    (h : ∀ x ∈ l, ∃ v, f x = some v) :
    List.Forall₂ (fun k v => f k = some v) l (l.filterMap f) := by
  induction l with
  | nil => exact List.Forall₂.nil
  | cons x l ih =>
    obtain ⟨v, hv⟩ := h x (List.mem_cons_self x l)
    rw [List.filterMap_cons, hv]
    exact List.Forall₂.cons hv (ih fun y hy => h y (List.mem_cons_of_mem x hy))

theorem except_toOption_eq_some (e : Except Err Nat) (v : Nat) :
    e.toOption = some v ↔ e = Except.ok v := by
  cases e <;> simp [Except.toOption]

/-- C4: `keys` enumerates each key of the union of the layers exactly once,
a key is enumerated iff some layer contains it, the enumeration order is
layer priority order then insertion order within a layer with later
duplicates suppressed, and `values` pairs each enumerated key with the value
`get` resolves for it (the highest-priority owning layer's value). -/
theorem keys_values_union_spec (c : ChainMap) :
    c.keys.Nodup
    ∧ (∀ k, k ∈ c.keys ↔ ∃ L ∈ c.maps, (lookupL L k).isSome)
    ∧ c.keys = dedupFrom [] (allKeys c.maps)
    ∧ List.Forall₂ (fun k v => c.get k = Except.ok v) c.keys c.values := by
  refine ⟨?_, mem_keys_iff c, keys_eq_dedupFrom c, ?_⟩
  · rw [keys_eq_dedupFrom]
    exact dedupFrom_nodup _ _
  · have h : ∀ k ∈ c.keys, ∃ v, (getFrom c.maps k).toOption = some v := by
      intro k hk
      obtain ⟨v, hv⟩ := getFrom_isOk c.maps k
        ((mem_keys_iff c k).1 hk)
      exact ⟨v, by rw [hv]; rfl⟩
    have h2 := forall2_filterMap (fun k => (getFrom c.maps k).toOption) c.keys h
    refine List.Forall₂.imp (fun k v hkv => ?_) h2
    exact (except_toOption_eq_some (getFrom c.maps k) v).1 hkv

/-- C6: the length of a view is the number of distinct keys of the union of
its layers; on the two two-key layers `[(1, 1), (3, 3)]` and
`[(2, 2), (3, 4)]`, which share key 3, the length is 3 while the per-layer
lengths sum to 4. -/
theorem len_distinct_union (c : ChainMap) :
    c.len = (allKeys c.maps).toFinset.card
    ∧ ChainMap.len ⟨[[(1, 1), (3, 3)], [(2, 2), (3, 4)]]⟩ = 3
    ∧ ([[(1, 1), (3, 3)], [(2, 2), (3, 4)]].map List.length).sum = 4 := by
  refine ⟨?_, by decide, by decide⟩
  have hnd : c.keys.Nodup := by
    rw [keys_eq_dedupFrom]
    exact dedupFrom_nodup _ _
  have hset : c.keys.toFinset = (allKeys c.maps).toFinset := by
    ext x
    simp only [List.mem_toFinset, keys_eq_dedupFrom, mem_dedupFrom]
    simp
  calc c.len = c.keys.length := rfl
    _ = c.keys.toFinset.card := (List.toFinset_card_of_nodup hnd).symm
    _ = (allKeys c.maps).toFinset.card := by rw [hset]

/-- Modelled from the spec: the view "holds non-owning references" to
externally owned mappings.  The owners' heap is a list of layers; a view
refers to its layers by their indices into that heap, so no copying of layer
contents happens at view construction. -/
def derefView (store : List Layer) (refs : List Nat) : List Layer :=
  refs.map (fun i => store.getD i [])

/-- A lookup through a reference-holding view: dereference each layer
reference at lookup time and scan the resulting chain. -/
def storeGet (store : List Layer) (refs : List Nat) (key : Nat) : Except Err Nat :=
  getFrom (derefView store refs) key

/-- Modelled from the spec: an external owner mutating one of its mappings in
place after the view was constructed: layer `i` of the heap gets `key` bound
to `val`. -/
def storeMutate (store : List Layer) (i key val : Nat) : List Layer :=
  store.set i (insertL (store.getD i []) key val)

theorem getD_set_self (l : List Layer) (i : Nat) (a : Layer)
    (h : i < l.length) : (l.set i a).getD i [] = a := by
  rw [List.getD_eq_getElem?_getD, List.getElem?_set_self h]
  rfl

/-- C8: no snapshotting: after an external in-place mutation of the mapping
the view's first reference points to, a `get` through the very same view
(same reference list, not reconstructed) returns the mutated value. -/
theorem external_mutation_visible (store : List Layer) (refs : List Nat)
    (i k v : Nat) (h1 : refs.head? = some i) (h2 : i < store.length) :
    storeGet (storeMutate store i k v) refs k = Except.ok v := by
  cases refs with
  | nil => simp at h1
  | cons j rest =>
    have hj : j = i := by simpa using h1
    subst hj
    have hd : (storeMutate store j k v).getD j [] =
        insertL (store.getD j []) k v := getD_set_self store j _ h2
    show getFrom (derefView (storeMutate store j k v) (j :: rest)) k = Except.ok v
    rw [derefView, List.map_cons, hd]
    simp [getFrom, lookupL_insertL_self]

/-- C8 witness: with heap `[[(1, 1)]]` and a view referring to layer 0,
externally rebinding key 1 to 13 in that layer makes `get 1` through the
unchanged view return 13. -/
theorem external_mutation_visible_witness :
    ([0] : List Nat).head? = some 0
    ∧ 0 < ([[(1, 1)]] : List Layer).length
    ∧ storeGet (storeMutate [[(1, 1)]] 0 1 13) [0] 1 = Except.ok 13 :=
  ⟨rfl, by decide, external_mutation_visible [[(1, 1)]] [0] 0 1 13 rfl (by decide)⟩

/-- A dictionary mapping names to prices, as in the source file's
`prices` / `prices2` examples: string keys, exact rational prices, in
insertion order. -/
abbrev PriceDict := List (String × Rat)

/-- Modelled from the spec: `zip(d.values(), d.keys())` pairs each value with
its key, in the dictionary's iteration order. -/
def zipValuesKeys (d : PriceDict) : List (Rat × String) :=
  d.map (fun p => (p.2, p.1))

/-- Modelled from the spec: Python's comparison on (value, key) tuples is
lexicographic: the value element is compared first, followed by the key. -/
def lexLt (a b : Rat × String) : Prop :=
  a.1 < b.1 ∨ (a.1 = b.1 ∧ a.2 < b.2)

instance (a b : Rat × String) : Decidable (lexLt a b) := by
  unfold lexLt
  infer_instance

/-- The reflexive closure of `lexLt`: value strictly smaller, or equal value
and key no larger. -/
def lexLe (a b : Rat × String) : Prop :=
  a.1 < b.1 ∨ (a.1 = b.1 ∧ a.2 ≤ b.2)

/-- One comparison step of Python's `min` over an iterable: keep the current
best unless the new element is strictly smaller. -/
def minStep (best q : Rat × String) : Rat × String :=
  if lexLt q best then q else best

/-- One comparison step of Python's `max` over an iterable: keep the current
best unless the new element is strictly larger. -/
def maxStep (best q : Rat × String) : Rat × String :=
  if lexLt best q then q else best

/-- Modelled from the spec: Python `min` over a sequence of (value, key)
pairs; fails on an empty sequence. -/
def minPair : List (Rat × String) → Option (Rat × String)
  | [] => none
  | p :: ps => some (ps.foldl minStep p)

/-- Modelled from the spec: Python `max` over a sequence of (value, key)
pairs; fails on an empty sequence. -/
def maxPair : List (Rat × String) → Option (Rat × String)
  | [] => none
  | p :: ps => some (ps.foldl maxStep p)

theorem lexLe_refl (a : Rat × String) : lexLe a a :=
  Or.inr ⟨rfl, le_refl _⟩

theorem lexLe_of_lexLt (a b : Rat × String) (h : lexLt a b) : lexLe a b := by
  rcases h with h | ⟨e, h⟩
  · exact Or.inl h
  · exact Or.inr ⟨e, le_of_lt h⟩

theorem not_lexLt (a b : Rat × String) : ¬ lexLt a b ↔ lexLe b a := by
  unfold lexLt lexLe
  push_neg
  constructor
  · rintro ⟨h1, h2⟩
    rcases eq_or_lt_of_le h1 with heq | hlt
    · exact Or.inr ⟨heq, h2 heq.symm⟩
    · exact Or.inl hlt
  · rintro (hlt | ⟨heq, hle⟩)
    · exact ⟨hlt.le, fun he => (lt_irrefl b.1 (he ▸ hlt)).elim⟩
    · exact ⟨le_of_eq heq, fun _ => hle⟩

theorem lexLe_trans (a b c : Rat × String) (h1 : lexLe a b) (h2 : lexLe b c) :
    lexLe a c := by
  rcases h1 with h1 | ⟨e1, l1⟩ <;> rcases h2 with h2 | ⟨e2, l2⟩
  · exact Or.inl (lt_trans h1 h2)
  · exact Or.inl (e2 ▸ h1)
  · exact Or.inl (e1.trans_lt h2)
  · exact Or.inr ⟨e1.trans e2, le_trans l1 l2⟩

theorem lexLe_fst (a b : Rat × String) (h : lexLe a b) : a.1 ≤ b.1 := by
  rcases h with h | ⟨e, _⟩
  · exact le_of_lt h
  · exact le_of_eq e

theorem lexLe_snd (a b : Rat × String) (h : lexLe a b) (he : b.1 = a.1) :
    a.2 ≤ b.2 := by
  rcases h with h | ⟨_, h2⟩
  · exact (lt_irrefl a.1 (he ▸ h)).elim
  · exact h2

theorem minStep_le_left (p a : Rat × String) : lexLe (minStep p a) p := by
  unfold minStep
  by_cases hc : lexLt a p
  · rw [if_pos hc]; exact lexLe_of_lexLt a p hc
  · rw [if_neg hc]; exact lexLe_refl p

theorem minStep_le_right (p a : Rat × String) : lexLe (minStep p a) a := by
  unfold minStep
  by_cases hc : lexLt a p
  · rw [if_pos hc]; exact lexLe_refl a
  · rw [if_neg hc]; exact (not_lexLt a p).1 hc

theorem maxStep_ge_left (p a : Rat × String) : lexLe p (maxStep p a) := by
  unfold maxStep
  by_cases hc : lexLt p a
  · rw [if_pos hc]; exact lexLe_of_lexLt p a hc
  · rw [if_neg hc]; exact lexLe_refl p

theorem maxStep_ge_right (p a : Rat × String) : lexLe a (maxStep p a) := by
  unfold maxStep
  by_cases hc : lexLt p a
  · rw [if_pos hc]; exact lexLe_refl a
  · rw [if_neg hc]; exact (not_lexLt p a).1 hc

theorem foldl_minStep_mem (ps : List (Rat × String)) : ∀ p,
    ps.foldl minStep p = p ∨ ps.foldl minStep p ∈ ps := by
  induction ps with
  | nil => intro p; exact Or.inl rfl
  | cons a ps ih =>
    intro p
    rw [List.foldl_cons]
    rcases ih (minStep p a) with h | h
    · rw [h]
      unfold minStep
      by_cases hc : lexLt a p
      · rw [if_pos hc]; exact Or.inr (List.mem_cons_self a ps)
      · rw [if_neg hc]; exact Or.inl rfl
    · exact Or.inr (List.mem_cons_of_mem a h)

theorem foldl_minStep_le_init (ps : List (Rat × String)) : ∀ p,
    lexLe (ps.foldl minStep p) p := by
  induction ps with
  | nil => intro p; exact lexLe_refl p
  | cons a ps ih =>
    intro p
    rw [List.foldl_cons]
    exact lexLe_trans _ _ _ (ih (minStep p a)) (minStep_le_left p a)

theorem foldl_minStep_le_mem (ps : List (Rat × String)) : ∀ p q, q ∈ ps →
    lexLe (ps.foldl minStep p) q := by
  induction ps with
  | nil => intro p q hq; simp at hq
  | cons a ps ih =>
    intro p q hq
    rw [List.foldl_cons]
    rcases List.mem_cons.1 hq with rfl | hmem
    · exact lexLe_trans _ _ _ (foldl_minStep_le_init ps (minStep p q))
        (minStep_le_right p q)
    · exact ih (minStep p a) q hmem

theorem foldl_maxStep_mem (ps : List (Rat × String)) : ∀ p,
    ps.foldl maxStep p = p ∨ ps.foldl maxStep p ∈ ps := by
  induction ps with
  | nil => intro p; exact Or.inl rfl
  | cons a ps ih =>
    intro p
    rw [List.foldl_cons]
    rcases ih (maxStep p a) with h | h
    · rw [h]
      unfold maxStep
      by_cases hc : lexLt p a
      · rw [if_pos hc]; exact Or.inr (List.mem_cons_self a ps)
      · rw [if_neg hc]; exact Or.inl rfl
    · exact Or.inr (List.mem_cons_of_mem a h)

theorem foldl_maxStep_ge_init (ps : List (Rat × String)) : ∀ p,
    lexLe p (ps.foldl maxStep p) := by
  induction ps with
  | nil => intro p; exact lexLe_refl p
  | cons a ps ih =>
    intro p
    rw [List.foldl_cons]
    exact lexLe_trans _ _ _ (maxStep_ge_left p a) (ih (maxStep p a))

theorem foldl_maxStep_ge_mem (ps : List (Rat × String)) : ∀ p q, q ∈ ps →
    lexLe q (ps.foldl maxStep p) := by
  induction ps with
  | nil => intro p q hq; simp at hq
  | cons a ps ih =>
    intro p q hq
    rw [List.foldl_cons]
    rcases List.mem_cons.1 hq with rfl | hmem
    · exact lexLe_trans _ _ _ (maxStep_ge_right p q)
        (foldl_maxStep_ge_init ps (maxStep p q))
    · exact ih (maxStep p a) q hmem

/-- C9: reductions over paired (value, key) tuples break value collisions by
key: on every nonempty dictionary, `min` over `zip(values, keys)` returns a
pair of the dictionary whose value is minimal and whose key is no larger than
the key of any entry sharing that minimal value, and `max` symmetrically
returns a maximal-value pair whose key is no smaller than the key of any
entry sharing that maximal value. -/
theorem paired_reduction_tiebreak (d : PriceDict) (hne : d ≠ []) :
    ∃ mv mk xv xk,
      minPair (zipValuesKeys d) = some (mv, mk)
      ∧ maxPair (zipValuesKeys d) = some (xv, xk)
      ∧ (mv, mk) ∈ zipValuesKeys d
      ∧ (xv, xk) ∈ zipValuesKeys d
      ∧ (∀ p ∈ zipValuesKeys d, mv ≤ p.1)
      ∧ (∀ p ∈ zipValuesKeys d, p.1 = mv → mk ≤ p.2)
      ∧ (∀ p ∈ zipValuesKeys d, p.1 ≤ xv)
      ∧ (∀ p ∈ zipValuesKeys d, p.1 = xv → p.2 ≤ xk) := by
  cases d with
  | nil => exact absurd rfl hne
  | cons e es =>
    have hz : zipValuesKeys (e :: es) = (e.2, e.1) :: zipValuesKeys es := rfl
    have hr_le : ∀ p ∈ zipValuesKeys (e :: es),
        lexLe ((zipValuesKeys es).foldl minStep (e.2, e.1)) p := by
      intro p hp
      rcases List.mem_cons.1 (hz ▸ hp) with rfl | hmem
      · exact foldl_minStep_le_init _ _
      · exact foldl_minStep_le_mem _ _ p hmem
    have hs_ge : ∀ p ∈ zipValuesKeys (e :: es),
        lexLe p ((zipValuesKeys es).foldl maxStep (e.2, e.1)) := by
      intro p hp
      rcases List.mem_cons.1 (hz ▸ hp) with rfl | hmem
      · exact foldl_maxStep_ge_init _ _
      · exact foldl_maxStep_ge_mem _ _ p hmem
    have hr_mem : (zipValuesKeys es).foldl minStep (e.2, e.1) ∈
        zipValuesKeys (e :: es) := by
      rw [hz]
      rcases foldl_minStep_mem (zipValuesKeys es) (e.2, e.1) with h | h
      · rw [h]; exact List.mem_cons_self _ _
      · exact List.mem_cons_of_mem _ h
    have hs_mem : (zipValuesKeys es).foldl maxStep (e.2, e.1) ∈
        zipValuesKeys (e :: es) := by
      rw [hz]
      rcases foldl_maxStep_mem (zipValuesKeys es) (e.2, e.1) with h | h
      · rw [h]; exact List.mem_cons_self _ _
      · exact List.mem_cons_of_mem _ h
    refine ⟨((zipValuesKeys es).foldl minStep (e.2, e.1)).1,
      ((zipValuesKeys es).foldl minStep (e.2, e.1)).2,
      ((zipValuesKeys es).foldl maxStep (e.2, e.1)).1,
      ((zipValuesKeys es).foldl maxStep (e.2, e.1)).2,
      by rw [hz]; rfl, by rw [hz]; rfl, hr_mem, hs_mem, ?_, ?_, ?_, ?_⟩
    · exact fun p hp => lexLe_fst _ p (hr_le p hp)
    · exact fun p hp he => lexLe_snd _ p (hr_le p hp) he
    · exact fun p hp => lexLe_fst p _ (hs_ge p hp)
    · exact fun p hp he => lexLe_snd p _ (hs_ge p hp) he.symm

/-- C9 witness: on the dictionary `{pen: 10.86, ruler: 10.86}` of the source
file, the min/max tie-break properties hold. -/
theorem paired_reduction_tiebreak_witness :
    ([("pen", (1086 : Rat)/100), ("ruler", (1086 : Rat)/100)] : PriceDict) ≠ []
    ∧ ∃ mv mk xv xk,
      minPair (zipValuesKeys [("pen", (1086 : Rat)/100),
          ("ruler", (1086 : Rat)/100)]) = some (mv, mk)
      ∧ maxPair (zipValuesKeys [("pen", (1086 : Rat)/100),
          ("ruler", (1086 : Rat)/100)]) = some (xv, xk)
      ∧ (mv, mk) ∈ zipValuesKeys [("pen", (1086 : Rat)/100),
          ("ruler", (1086 : Rat)/100)]
      ∧ (xv, xk) ∈ zipValuesKeys [("pen", (1086 : Rat)/100),
          ("ruler", (1086 : Rat)/100)]
      ∧ (∀ p ∈ zipValuesKeys [("pen", (1086 : Rat)/100),
          ("ruler", (1086 : Rat)/100)], mv ≤ p.1)
      ∧ (∀ p ∈ zipValuesKeys [("pen", (1086 : Rat)/100),
          ("ruler", (1086 : Rat)/100)], p.1 = mv → mk ≤ p.2)
      ∧ (∀ p ∈ zipValuesKeys [("pen", (1086 : Rat)/100),
          ("ruler", (1086 : Rat)/100)], p.1 ≤ xv)
      ∧ (∀ p ∈ zipValuesKeys [("pen", (1086 : Rat)/100),
          ("ruler", (1086 : Rat)/100)], p.1 = xv → p.2 ≤ xk) :=
  ⟨List.cons_ne_nil _ _,
   paired_reduction_tiebreak [("pen", (1086 : Rat)/100),
     ("ruler", (1086 : Rat)/100)] (List.cons_ne_nil _ _)⟩

end Cookbook
